import Mathlib

/-!
The bounded ring queue of goQueue (queue.go).

A shallow embedding of `queue.go`.  The queue state is a record of the four
`uint32` fields and the slot slice; every operation is a pure function from a
state to an `Outcome` carrying the next state and the values the Go method
returns.

* `uint32` fields are natural numbers, arithmetic on them is reduced modulo
  `u32 = 2 ^ 32` exactly where the Go code computes in `uint32`.
* `interface{}` is `Value α`: the nil interface, a boolean (the non-blocking
  `Get` returns the boolean `false` on a lost race) or any other datum.
* `error` is `Option String`: `none` is the nil error, `some msg` the error made
  by `fmt.Errorf(msg)`.
* A run-time panic (integer division by zero, slice index out of range) is
  `Outcome.panic`; a call parked in `cond.Wait()` is `Outcome.wait`.
* The mutex and the condition variable are not part of the state; the
  `Broadcast` a blocking call performs is reported as a boolean flag.
-/

namespace GoQueue

/-- Values of Go type `interface{}`. -/
inductive Value (α : Type) where
  | nil : Value α
  | bool (b : Bool) : Value α
  | data (a : α) : Value α
  deriving DecidableEq

/-- The slot type `cache` of queue.go: `struct { value interface{} }`. -/
structure cache (α : Type) where
  value : Value α
  deriving DecidableEq

/-- The struct `Queue` of queue.go, without the `cond` field. -/
structure Queue (α : Type) where
  capacity : Nat
  getPos : Nat
  putPos : Nat
  size : Nat
  caches : List (cache α)
  deriving DecidableEq

/-- How a call ends: it returns, it panics, or it is parked in `cond.Wait()`. -/
inductive Outcome (β : Type) where
  | ret (b : β) : Outcome β
  | panic : Outcome β
  | wait : Outcome β
  deriving DecidableEq

/-- The modulus of `uint32` arithmetic. -/
def u32 : Nat := 2 ^ 32

/-- The message of `fmt.Errorf("queue is full")`. -/
def errFull : String := "queue is full"

/-- The message of `fmt.Errorf("queue is empty")`. -/
def errEmpty : String := "queue is empty"

/-- The message of `fmt.Errorf("the queue has been changed, sync failed")`. -/
def errSync : String := "the queue has been changed, sync failed"

/-- `CreateQueue`: all counters zero, `make([]cache, capacity)` zero-valued slots. -/
def CreateQueue {α : Type} (capacity : Nat) : Queue α :=
  { capacity := capacity
    size := 0
    getPos := 0
    putPos := 0
    caches := List.replicate capacity ⟨Value.nil⟩ }

/-- `Queue.Capacity`. -/
def Queue.Capacity {α : Type} (q : Queue α) : Nat := q.capacity

/-- `Queue.Size`: an atomic load of `size`. -/
def Queue.Size {α : Type} (q : Queue α) : Nat := q.size

/-- `atomic.CompareAndSwapUint32(addr, old, new)`: the new content of the
word and whether the swap happened. -/
def CompareAndSwapUint32 (addr old new : Nat) : Nat × Bool :=
  if addr = old then (new, true) else (addr, false)

/-- The body of `Put` after its two atomic loads returned `size` and `putPos`,
run on the state `q` that is current when the compare-and-swaps execute. -/
def Queue.PutLoaded {α : Type} (q : Queue α) (size putPos : Nat) (value : Value α) :
    Outcome (Queue α × Bool × Option String) :=
  if size ≥ q.capacity then .ret (q, false, some errFull)
  else if q.capacity = 0 then .panic
  else
    let putPosNew := (putPos + 1) % u32 % q.capacity
    let cas1 := CompareAndSwapUint32 q.putPos putPos putPosNew
    let q1 : Queue α := { q with putPos := cas1.1 }
    if cas1.2 = false then .ret (q1, false, some errSync)
    else
      let cas2 := CompareAndSwapUint32 q1.size size ((size + 1) % u32)
      let q2 : Queue α := { q1 with size := cas2.1 }
      if cas2.2 = false then .ret (q2, false, some errSync)
      else if putPos < q2.caches.length then
        .ret ({ q2 with caches := q2.caches.set putPos ⟨value⟩ }, true, none)
      else .panic

/-- `Queue.Put` run without interference: the loads see the state the
compare-and-swaps act on. -/
def Queue.Put {α : Type} (q : Queue α) (value : Value α) :
    Outcome (Queue α × Bool × Option String) :=
  q.PutLoaded q.size q.putPos value

/-- The body of `Get` after its two atomic loads returned `size` and `getPos`,
run on the state `q` that is current when the compare-and-swaps execute. -/
def Queue.GetLoaded {α : Type} (q : Queue α) (size getPos : Nat) :
    Outcome (Queue α × Value α × Option String) :=
  if size ≤ 0 then .ret (q, Value.nil, some errEmpty)
  else if q.capacity = 0 then .panic
  else
    let getPosNew := (getPos + 1) % u32 % q.capacity
    let cas1 := CompareAndSwapUint32 q.getPos getPos getPosNew
    let q1 : Queue α := { q with getPos := cas1.1 }
    if cas1.2 = false then .ret (q1, Value.bool false, some errSync)
    else
      let cas2 := CompareAndSwapUint32 q1.size size ((size + u32 - 1) % u32)
      let q2 : Queue α := { q1 with size := cas2.1 }
      if cas2.2 = false then .ret (q2, Value.bool false, some errSync)
      else
        match q2.caches[getPos]? with
        | some c => .ret ({ q2 with caches := q2.caches.set getPos ⟨Value.nil⟩ }, c.value, none)
        | none => .panic

/-- `Queue.Get` run without interference. -/
def Queue.Get {α : Type} (q : Queue α) : Outcome (Queue α × Value α × Option String) :=
  q.GetLoaded q.size q.getPos

/-- The part of `PutWithBlock` that follows the `if size >= capacity { Wait }`
statement.  The flag reports `cond.Broadcast()`. -/
def Queue.PutWithBlockBody {α : Type} (q : Queue α) (value : Value α) :
    Outcome (Queue α × Bool) :=
  if q.capacity = 0 then .panic
  else
    let putPosNew := (q.putPos + 1) % u32 % q.capacity
    if q.putPos < q.caches.length then
      .ret ({ q with
                caches := q.caches.set q.putPos ⟨value⟩
                putPos := putPosNew
                size := (q.size + 1) % u32 }, true)
    else .panic

/-- `Queue.PutWithBlock` called with the lock free: it parks when the queue is
full, otherwise runs its body at once. -/
def Queue.PutWithBlock {α : Type} (q : Queue α) (value : Value α) :
    Outcome (Queue α × Bool) :=
  if q.size ≥ q.capacity then .wait else q.PutWithBlockBody value

/-- The part of `GetWithBlock` that follows the `if size <= 0 { Wait }`
statement.  The flag reports whether `cond.Broadcast()` was called. -/
def Queue.GetWithBlockBody {α : Type} (q : Queue α) : Outcome (Queue α × Value α × Bool) :=
  if q.capacity = 0 then .panic
  else
    let getPosNew := (q.getPos + 1) % u32 % q.capacity
    match q.caches[q.getPos]? with
    | some c =>
      .ret ({ q with
                caches := q.caches.set q.getPos ⟨Value.nil⟩
                getPos := getPosNew
                size := (q.size + u32 - 1) % u32 }, c.value, decide (q.size ≥ q.capacity))
    | none => .panic

/-- `Queue.GetWithBlock` called with the lock free: it parks when the queue is
empty, otherwise runs its body at once. -/
def Queue.GetWithBlock {α : Type} (q : Queue α) : Outcome (Queue α × Value α × Bool) :=
  if q.size ≤ 0 then .wait else q.GetWithBlockBody

/-! ## Single-threaded call sequences -/

/-- A call of one of the four queue methods. -/
inductive Call (α : Type) where
  | Put (v : Value α) : Call α
  | Get : Call α
  | PutWithBlock (v : Value α) : Call α
  | GetWithBlock : Call α
  deriving DecidableEq

/-- Keep the state of an outcome and drop the returned values. -/
def Outcome.state {α β : Type} : Outcome (Queue α × β) → Outcome (Queue α)
  | .ret (q, _) => .ret q
  | .panic => .panic
  | .wait => .wait

/-- The state after one call. -/
def Queue.call {α : Type} (q : Queue α) : Call α → Outcome (Queue α)
  | .Put v => (q.Put v).state
  | .Get => q.Get.state
  | .PutWithBlock v => (q.PutWithBlock v).state
  | .GetWithBlock => q.GetWithBlock.state

/-- The state after a sequence of calls made one after the other by a single
thread; the run stops at the first call that panics or parks. -/
def Queue.calls {α : Type} (q : Queue α) : List (Call α) → Outcome (Queue α)
  | [] => .ret q
  | c :: cs =>
    match q.call c with
    | .ret q1 => q1.calls cs
    | .panic => .panic
    | .wait => .wait

/-- Put the values of a list one after the other, collecting what each `Put`
returns. -/
def Queue.PutAll {α : Type} (q : Queue α) :
    List (Value α) → Outcome (Queue α × List (Bool × Option String))
  | [] => .ret (q, [])
  | v :: vs =>
    match q.Put v with
    | .ret (q1, r) =>
      match q1.PutAll vs with
      | .ret (q2, rs) => .ret (q2, r :: rs)
      | .panic => .panic
      | .wait => .wait
    | .panic => .panic
    | .wait => .wait

/-- Call `Get` a number of times in a row, collecting what each call returns. -/
def Queue.GetN {α : Type} (q : Queue α) :
    Nat → Outcome (Queue α × List (Value α × Option String))
  | 0 => .ret (q, [])
  | n + 1 =>
    match q.Get with
    | .ret (q1, r) =>
      match q1.GetN n with
      | .ret (q2, rs) => .ret (q2, r :: rs)
      | .panic => .panic
      | .wait => .wait
    | .panic => .panic
    | .wait => .wait

/-! ## Consistent states and the abstract content -/

/-- The consistent states: the capacity is a `uint32`, the slot slice has
`capacity` slots, `size` is within the capacity, `getPos` is an index of the
slice and `putPos` is `size` slots ahead of `getPos`, cyclically. -/
def Consistent {α : Type} (q : Queue α) : Prop :=
  q.capacity < u32 ∧ q.caches.length = q.capacity ∧ q.size ≤ q.capacity ∧
    (0 < q.capacity → q.getPos < q.capacity) ∧
    q.putPos = (q.getPos + q.size) % q.capacity

instance {α : Type} (q : Queue α) : Decidable (Consistent q) := by
  unfold Consistent; infer_instance

/-- The value held by slot `i` (nil outside the slice). -/
def Queue.slot {α : Type} (q : Queue α) (i : Nat) : Value α :=
  match q.caches[i]? with
  | some c => c.value
  | none => Value.nil

/-- The values held by the `size` slots that start at `getPos`, oldest first. -/
def Queue.contents {α : Type} (q : Queue α) : List (Value α) :=
  (List.range q.size).map fun i => q.slot ((q.getPos + i) % q.capacity)

/-- Whether a call is one of the two non-blocking methods, `Put` or `Get`. -/
def Call.nonBlocking {α : Type} : Call α → Bool
  | .Put _ => true
  | .Get => true
  | .PutWithBlock _ => false
  | .GetWithBlock => false

/-- Whether a call stores the nil interface value in the queue. -/
def Call.putsNil {α : Type} : Call α → Bool
  | .Put .nil => true
  | .PutWithBlock .nil => true
  | _ => false

/-- The live-slot property: among the slots of the ring, exactly those at
`(getPos + i) % capacity` for `i < size` hold a non-nil value. -/
def LiveSlots {α : Type} (q : Queue α) : Prop :=
  ∀ j : Nat, j < q.capacity →
    (q.slot j ≠ Value.nil ↔ ∃ i : Nat, i < q.size ∧ j = (q.getPos + i) % q.capacity)

/-! ## Lemmas -/

theorem Consistent.putPos_lt {α : Type} {q : Queue α} (h : Consistent q)
    (hc : 0 < q.capacity) : q.putPos < q.capacity := by
  obtain ⟨_, _, _, _, hp⟩ := h
  rw [hp]
  exact Nat.mod_lt _ hc

theorem add_mod_ne {c g i j : Nat} (hij : i < j) (hj : j < c) :
    (g + i) % c ≠ (g + j) % c := by
  intro h
  have h1 : Nat.ModEq c (g + i) (g + j) := h
  have h2 : Nat.ModEq c i j := Nat.ModEq.add_left_cancel' g h1
  unfold Nat.ModEq at h2
  rw [Nat.mod_eq_of_lt (by omega), Nat.mod_eq_of_lt hj] at h2
  omega

/-- A `Put` on a consistent queue that is not full succeeds, with this state. -/
theorem Put_ret {α : Type} (q : Queue α) (v : Value α) (h : Consistent q)
    (hs : q.size < q.capacity) :
    q.Put v = .ret ({ q with
                        putPos := (q.putPos + 1) % q.capacity
                        size := q.size + 1
                        caches := q.caches.set q.putPos ⟨v⟩ }, true, none) := by
  have hc : 0 < q.capacity := by omega
  have hp := h.putPos_lt hc
  obtain ⟨hu, hl, _, _, _⟩ := h
  have e1 : (q.putPos + 1) % u32 = q.putPos + 1 := Nat.mod_eq_of_lt (by omega)
  have e2 : (q.size + 1) % u32 = q.size + 1 := Nat.mod_eq_of_lt (by omega)
  have hn : ¬ q.size ≥ q.capacity := by omega
  have hz : ¬ q.capacity = 0 := by omega
  simp [Queue.Put, Queue.PutLoaded, CompareAndSwapUint32, hn, hz, e1, e2, hl, hp]

/-- A `Get` on a consistent queue that is not empty succeeds, with this state. -/
theorem Get_ret {α : Type} (q : Queue α) (h : Consistent q) (hs : 0 < q.size) :
    q.Get = .ret ({ q with
                      getPos := (q.getPos + 1) % q.capacity
                      size := q.size - 1
                      caches := q.caches.set q.getPos ⟨Value.nil⟩ },
                    q.slot q.getPos, none) := by
  obtain ⟨hu, hl, hle, hg, _⟩ := h
  have hc : 0 < q.capacity := by omega
  have hg := hg hc
  have e1 : (q.getPos + 1) % u32 = q.getPos + 1 := Nat.mod_eq_of_lt (by omega)
  have e2 : (q.size + u32 - 1) % u32 = q.size - 1 := by
    have : q.size + u32 - 1 = (q.size - 1) + u32 := by omega
    rw [this, Nat.add_mod_right]
    exact Nat.mod_eq_of_lt (by omega)
  have hn : ¬ q.size ≤ 0 := by omega
  have hz : ¬ q.capacity = 0 := by omega
  have hlt : q.getPos < q.caches.length := by omega
  simp [Queue.Get, Queue.GetLoaded, CompareAndSwapUint32, hn, hz, e1, e2, Queue.slot,
    List.getElem?_eq_getElem hlt]

theorem Put_consistent {α : Type} (q : Queue α) (v : Value α) (h : Consistent q)
    (hs : q.size < q.capacity) :
    Consistent ({ q with
                    putPos := (q.putPos + 1) % q.capacity
                    size := q.size + 1
                    caches := q.caches.set q.putPos ⟨v⟩ } : Queue α) := by
  obtain ⟨hu, hl, _, hg, hp⟩ := h
  refine ⟨hu, ?_, ?_, hg, ?_⟩
  · simpa using hl
  · show q.size + 1 ≤ q.capacity
    omega
  · show (q.putPos + 1) % q.capacity = (q.getPos + (q.size + 1)) % q.capacity
    rw [hp, Nat.mod_add_mod, Nat.add_assoc]

theorem Get_consistent {α : Type} (q : Queue α) (h : Consistent q) (hs : 0 < q.size) :
    Consistent ({ q with
                    getPos := (q.getPos + 1) % q.capacity
                    size := q.size - 1
                    caches := q.caches.set q.getPos ⟨Value.nil⟩ } : Queue α) := by
  obtain ⟨hu, hl, hle, hg, hp⟩ := h
  refine ⟨hu, ?_, ?_, ?_, ?_⟩
  · simpa using hl
  · show q.size - 1 ≤ q.capacity
    omega
  · intro hc
    exact Nat.mod_lt _ hc
  · show q.putPos = ((q.getPos + 1) % q.capacity + (q.size - 1)) % q.capacity
    rw [hp, Nat.mod_add_mod]
    congr 1
    omega

theorem contents_Put {α : Type} (q : Queue α) (v : Value α) (h : Consistent q)
    (hs : q.size < q.capacity) :
    Queue.contents ({ q with
                        putPos := (q.putPos + 1) % q.capacity
                        size := q.size + 1
                        caches := q.caches.set q.putPos ⟨v⟩ } : Queue α)
      = q.contents ++ [v] := by
  have hc : 0 < q.capacity := by omega
  have hlt := h.putPos_lt hc
  obtain ⟨_, hl, _, _, hp⟩ := h
  unfold Queue.contents
  simp only [List.range_succ, List.map_append, List.map_cons, List.map_nil]
  congr 1
  · apply List.map_congr_left
    intro i hi
    have hi : i < q.size := List.mem_range.mp hi
    have hne : q.putPos ≠ (q.getPos + i) % q.capacity := by
      rw [hp]
      exact (add_mod_ne hi hs).symm
    simp [Queue.slot, List.getElem?_set_ne hne]
  · have hlt2 : q.putPos < q.caches.length := by omega
    simp [Queue.slot, ← hp, List.getElem?_set_self hlt2]

theorem contents_Get {α : Type} (q : Queue α) (h : Consistent q) (hs : 0 < q.size) :
    q.contents = q.slot q.getPos ::
      Queue.contents ({ q with
                          getPos := (q.getPos + 1) % q.capacity
                          size := q.size - 1
                          caches := q.caches.set q.getPos ⟨Value.nil⟩ } : Queue α) := by
  obtain ⟨_, hl, hle, hg, hp⟩ := h
  have hc : 0 < q.capacity := by omega
  have hg := hg hc
  unfold Queue.contents
  obtain ⟨n, hn⟩ : ∃ n, q.size = n + 1 := ⟨q.size - 1, by omega⟩
  simp only [hn, List.range_succ_eq_map, List.map_cons, List.map_map, Nat.add_sub_cancel,
    Nat.add_zero, Nat.mod_eq_of_lt hg]
  congr 1
  apply List.map_congr_left
  intro i hi
  have hi : i < n := List.mem_range.mp hi
  have e : ((q.getPos + 1) % q.capacity + i) % q.capacity
      = (q.getPos + (i + 1)) % q.capacity := by
    rw [Nat.mod_add_mod]
    congr 1
    omega
  have hne : q.getPos ≠ (q.getPos + (i + 1)) % q.capacity := by
    have := add_mod_ne (c := q.capacity) (g := q.getPos) (i := 0) (j := i + 1)
      (by omega) (by omega)
    simpa [Nat.mod_eq_of_lt hg] using this
  simp [Queue.slot, e, List.getElem?_set_ne hne]

/-- Puts that fit in the free room all succeed and append to the content. -/
theorem PutAll_ret {α : Type} (vs : List (Value α)) :
    ∀ q : Queue α, Consistent q → q.size + vs.length ≤ q.capacity →
      ∃ q1 : Queue α,
        q.PutAll vs = .ret (q1, List.replicate vs.length (true, none)) ∧
        Consistent q1 ∧ q1.capacity = q.capacity ∧ q1.getPos = q.getPos ∧
        q1.size = q.size + vs.length ∧ q1.contents = q.contents ++ vs := by
  induction vs with
  | nil =>
    intro q h _
    exact ⟨q, rfl, h, rfl, rfl, rfl, by simp⟩
  | cons v vs ih =>
    intro q h hroom
    have hs : q.size < q.capacity := by
      simp only [List.length_cons] at hroom
      omega
    obtain ⟨q1, h1, hc1, hcap, hget, hsize, hcont⟩ :=
      ih _ (Put_consistent q v h hs) (by
        show q.size + 1 + vs.length ≤ q.capacity
        simp only [List.length_cons] at hroom
        omega)
    refine ⟨q1, ?_, hc1, hcap, hget, ?_, ?_⟩
    · simp only [Queue.PutAll, Put_ret q v h hs, h1, List.length_cons, List.replicate_succ]
    · rw [hsize]
      simp only [List.length_cons]
      omega
    · rw [hcont, contents_Put q v h hs]
      simp

/-- Gets that do not exceed the size all succeed and return the content in
order. -/
theorem GetN_ret {α : Type} (n : Nat) :
    ∀ q : Queue α, Consistent q → n ≤ q.size →
      ∃ q2 : Queue α,
        q.GetN n = .ret (q2, (q.contents.take n).map fun v => (v, none)) ∧
        Consistent q2 ∧ q2.capacity = q.capacity ∧ q2.putPos = q.putPos ∧
        q2.size = q.size - n ∧ q2.contents = q.contents.drop n := by
  induction n with
  | zero =>
    intro q h _
    exact ⟨q, rfl, h, rfl, rfl, rfl, by simp⟩
  | succ n ih =>
    intro q h hn
    have hs : 0 < q.size := by omega
    obtain ⟨q2, h2, hc2, hcap, hput, hsize, hcont⟩ :=
      ih _ (Get_consistent q h hs) (by
        show n ≤ q.size - 1
        omega)
    refine ⟨q2, ?_, hc2, hcap, hput, ?_, ?_⟩
    · rw [contents_Get q h hs]
      simp only [Queue.GetN, Get_ret q h hs, h2, List.take_succ_cons, List.map_cons]
    · rw [hsize]
      show q.size - 1 - n = q.size - (n + 1)
      omega
    · rw [hcont, contents_Get q h hs]
      simp

theorem contents_of_size_zero {α : Type} (q : Queue α) (h : q.size = 0) :
    q.contents = [] := by
  simp [Queue.contents, h]

theorem CreateQueue_consistent {α : Type} (c : Nat) (hc : c < u32) :
    Consistent (CreateQueue c : Queue α) := by
  refine ⟨hc, ?_, ?_, ?_, ?_⟩ <;> simp [CreateQueue]

/-- A `PutWithBlock` on a consistent queue that is not full returns at once. -/
theorem PutWithBlock_ret {α : Type} (q : Queue α) (v : Value α) (h : Consistent q)
    (hs : q.size < q.capacity) :
    q.PutWithBlock v = .ret ({ q with
                                 putPos := (q.putPos + 1) % q.capacity
                                 size := q.size + 1
                                 caches := q.caches.set q.putPos ⟨v⟩ }, true) := by
  have hc : 0 < q.capacity := by omega
  have hp := h.putPos_lt hc
  obtain ⟨hu, hl, _, _, _⟩ := h
  have e1 : (q.putPos + 1) % u32 = q.putPos + 1 := Nat.mod_eq_of_lt (by omega)
  have e2 : (q.size + 1) % u32 = q.size + 1 := Nat.mod_eq_of_lt (by omega)
  have hn : ¬ q.size ≥ q.capacity := by omega
  have hz : ¬ q.capacity = 0 := by omega
  simp [Queue.PutWithBlock, Queue.PutWithBlockBody, hn, hz, e1, e2, hl, hp]

/-- A `GetWithBlock` on a consistent queue that is not empty returns at once. -/
theorem GetWithBlock_ret {α : Type} (q : Queue α) (h : Consistent q) (hs : 0 < q.size) :
    q.GetWithBlock = .ret ({ q with
                               getPos := (q.getPos + 1) % q.capacity
                               size := q.size - 1
                               caches := q.caches.set q.getPos ⟨Value.nil⟩ },
                             q.slot q.getPos, decide (q.size ≥ q.capacity)) := by
  obtain ⟨hu, hl, hle, hg, _⟩ := h
  have hc : 0 < q.capacity := by omega
  have hg := hg hc
  have e1 : (q.getPos + 1) % u32 = q.getPos + 1 := Nat.mod_eq_of_lt (by omega)
  have e2 : (q.size + u32 - 1) % u32 = q.size - 1 := by
    have : q.size + u32 - 1 = (q.size - 1) + u32 := by omega
    rw [this, Nat.add_mod_right]
    exact Nat.mod_eq_of_lt (by omega)
  have hn : ¬ q.size ≤ 0 := by omega
  have hz : ¬ q.capacity = 0 := by omega
  have hlt : q.getPos < q.caches.length := by omega
  simp [Queue.GetWithBlock, Queue.GetWithBlockBody, hn, hz, e1, e2, Queue.slot,
    List.getElem?_eq_getElem hlt]

theorem Put_of_full {α : Type} (q : Queue α) (v : Value α) (h : q.size ≥ q.capacity) :
    q.Put v = .ret (q, false, some errFull) := by
  simp [Queue.Put, Queue.PutLoaded, h]

theorem Get_of_empty {α : Type} (q : Queue α) (h : q.size = 0) :
    q.Get = .ret (q, Value.nil, some errEmpty) := by
  simp [Queue.Get, Queue.GetLoaded, h]

/-- One call that returns keeps a consistent queue consistent, with the same
capacity. -/
theorem call_consistent {α : Type} (q q1 : Queue α) (c : Call α) (h : Consistent q)
    (hr : q.call c = .ret q1) : Consistent q1 ∧ q1.capacity = q.capacity := by
  cases c with
  | Put v =>
    by_cases hs : q.size < q.capacity
    · simp only [Queue.call, Put_ret q v h hs, Outcome.state, Outcome.ret.injEq] at hr
      subst hr
      exact ⟨Put_consistent q v h hs, rfl⟩
    · simp only [Queue.call, Put_of_full q v (by omega), Outcome.state,
        Outcome.ret.injEq] at hr
      subst hr
      exact ⟨h, rfl⟩
  | Get =>
    by_cases hs : 0 < q.size
    · simp only [Queue.call, Get_ret q h hs, Outcome.state, Outcome.ret.injEq] at hr
      subst hr
      exact ⟨Get_consistent q h hs, rfl⟩
    · simp only [Queue.call, Get_of_empty q (by omega), Outcome.state,
        Outcome.ret.injEq] at hr
      subst hr
      exact ⟨h, rfl⟩
  | PutWithBlock v =>
    by_cases hs : q.size < q.capacity
    · simp only [Queue.call, PutWithBlock_ret q v h hs, Outcome.state,
        Outcome.ret.injEq] at hr
      subst hr
      exact ⟨Put_consistent q v h hs, rfl⟩
    · have hw : q.PutWithBlock v = .wait := by
        simp [Queue.PutWithBlock, Nat.le_of_not_lt hs]
      simp [Queue.call, hw, Outcome.state] at hr
  | GetWithBlock =>
    by_cases hs : 0 < q.size
    · simp only [Queue.call, GetWithBlock_ret q h hs, Outcome.state,
        Outcome.ret.injEq] at hr
      subst hr
      exact ⟨Get_consistent q h hs, rfl⟩
    · have hw : q.GetWithBlock = .wait := by
        simp [Queue.GetWithBlock, Nat.le_of_not_lt hs]
      simp [Queue.call, hw, Outcome.state] at hr

/-- No call panics on a consistent queue. -/
theorem call_ne_panic {α : Type} (q : Queue α) (c : Call α) (h : Consistent q) :
    q.call c ≠ .panic := by
  cases c with
  | Put v =>
    by_cases hs : q.size < q.capacity
    · simp [Queue.call, Put_ret q v h hs, Outcome.state]
    · simp [Queue.call, Put_of_full q v (by omega), Outcome.state]
  | Get =>
    by_cases hs : 0 < q.size
    · simp [Queue.call, Get_ret q h hs, Outcome.state]
    · simp [Queue.call, Get_of_empty q (by omega), Outcome.state]
  | PutWithBlock v =>
    by_cases hs : q.size < q.capacity
    · simp [Queue.call, PutWithBlock_ret q v h hs, Outcome.state]
    · simp [Queue.call, Queue.PutWithBlock, Nat.le_of_not_lt hs, Outcome.state]
  | GetWithBlock =>
    by_cases hs : 0 < q.size
    · simp [Queue.call, GetWithBlock_ret q h hs, Outcome.state]
    · simp [Queue.call, Queue.GetWithBlock, Nat.le_of_not_lt hs, Outcome.state]

/-- No run of calls panics from a consistent queue. -/
theorem calls_ne_panic {α : Type} (cs : List (Call α)) :
    ∀ q : Queue α, Consistent q → q.calls cs ≠ .panic := by
  induction cs with
  | nil =>
    intro q _
    simp [Queue.calls]
  | cons c cs ih =>
    intro q h
    simp only [Queue.calls]
    cases hc : q.call c with
    | ret q2 => exact ih q2 (call_consistent q q2 c h hc).1
    | panic => exact absurd hc (call_ne_panic q c h)
    | wait => simp

/-- A run of calls that returns keeps a consistent queue consistent. -/
theorem calls_consistent {α : Type} (cs : List (Call α)) :
    ∀ q q1 : Queue α, Consistent q → q.calls cs = .ret q1 →
      Consistent q1 ∧ q1.capacity = q.capacity := by
  induction cs with
  | nil =>
    intro q q1 h hr
    simp only [Queue.calls, Outcome.ret.injEq] at hr
    subst hr
    exact ⟨h, rfl⟩
  | cons c cs ih =>
    intro q q1 h hr
    simp only [Queue.calls] at hr
    cases hc : q.call c with
    | ret q2 =>
      rw [hc] at hr
      obtain ⟨h2, hcap2⟩ := call_consistent q q2 c h hc
      obtain ⟨h1, hcap1⟩ := ih q2 q1 h2 hr
      exact ⟨h1, hcap1.trans hcap2⟩
    | panic => rw [hc] at hr; cases hr
    | wait => rw [hc] at hr; cases hr

/-! ## The non-blocking discipline, single-threaded -/

/-- C1 (FIFO order of the non-blocking discipline): on every consistent queue
of size 0 (so getPos = putPos, at any index below the capacity; the slots may
hold anything, in particular they may all be empty), for every list of
N values with N at most the capacity, the N calls of Put all return
(true, nil) and the N calls of Get that follow return exactly those values,
in the order they were put, each with a nil error.  The start index is
arbitrary, so the positions may wrap past the end of the slot array. -/
theorem Put_Get_fifo {α : Type} (q : Queue α) (vs : List (Value α))
    (hq : Consistent q) (he : q.size = 0) (hn : vs.length ≤ q.capacity) :
    ∃ q1 q2 : Queue α,
      q.PutAll vs = .ret (q1, List.replicate vs.length (true, none)) ∧
      q1.GetN vs.length = .ret (q2, vs.map fun v => (v, none)) := by
  obtain ⟨q1, h1, hc1, _, _, hs1, hcont⟩ := PutAll_ret vs q hq (by omega)
  obtain ⟨q2, h2, _⟩ := GetN_ret vs.length q1 hc1 (by omega)
  refine ⟨q1, q2, h1, ?_⟩
  rw [h2, hcont, contents_of_size_zero q he]
  simp

theorem Put_Get_fifo_witness :
    Consistent (⟨3, 2, 2, 0, [⟨.nil⟩, ⟨.nil⟩, ⟨.nil⟩]⟩ : Queue Nat) ∧
    ∃ q1 q2 : Queue Nat,
      (⟨3, 2, 2, 0, [⟨.nil⟩, ⟨.nil⟩, ⟨.nil⟩]⟩ : Queue Nat).PutAll
          [.data 10, .nil, .data 30]
        = .ret (q1, List.replicate 3 (true, none)) ∧
      q1.GetN 3 = .ret (q2, [(.data 10, none), (.nil, none), (.data 30, none)]) :=
  ⟨by decide,
   Put_Get_fifo ⟨3, 2, 2, 0, [⟨.nil⟩, ⟨.nil⟩, ⟨.nil⟩]⟩ [.data 10, .nil, .data 30]
     (by decide) rfl (by decide)⟩

/-- C2 (round trip): on every consistent queue of size 0 and capacity at
least 1 (so getPos = putPos, below the capacity), Put(x) returns (true, nil)
and the Get that follows returns (x, nil) and leaves the queue empty:
size 0, the slot that held x cleared to nil, getPos = putPos. -/
theorem Put_Get_round_trip {α : Type} (q : Queue α) (x : Value α)
    (hq : Consistent q) (hc : 1 ≤ q.capacity) (he : q.size = 0) :
    ∃ q1 q2 : Queue α,
      q.Put x = .ret (q1, true, none) ∧
      q1.Get = .ret (q2, x, none) ∧
      q2.size = 0 ∧ q2.caches[q.putPos]? = some ⟨Value.nil⟩ ∧ q2.getPos = q2.putPos := by
  have hs : q.size < q.capacity := by omega
  have hq1 := Put_consistent q x hq hs
  have hlt := hq.putPos_lt (by omega)
  have hput := Put_ret q x hq hs
  have hget := Get_ret _ hq1 (by show 0 < q.size + 1; omega)
  obtain ⟨_, hl, _, hg, hp⟩ := hq
  have hgp : q.getPos = q.putPos := by
    rw [hp, he, Nat.add_zero, Nat.mod_eq_of_lt (hg (by omega))]
  have hlt2 : q.putPos < q.caches.length := by omega
  refine ⟨_, { q with
                getPos := (q.getPos + 1) % q.capacity
                putPos := (q.putPos + 1) % q.capacity
                size := q.size + 1 - 1
                caches := (q.caches.set q.putPos ⟨x⟩).set q.getPos ⟨Value.nil⟩ },
    hput, ?_, ?_, ?_, ?_⟩
  · rw [hget]
    simp [Queue.slot, hgp, List.getElem?_set_self hlt2]
  · show q.size + 1 - 1 = 0
    omega
  · simp [hgp, List.getElem?_set_self hlt2]
  · show (q.getPos + 1) % q.capacity = (q.putPos + 1) % q.capacity
    rw [hgp]

theorem Put_Get_round_trip_witness :
    Consistent (⟨1, 0, 0, 0, [⟨.data 9⟩]⟩ : Queue Nat) ∧
    ∃ q1 q2 : Queue Nat,
      (⟨1, 0, 0, 0, [⟨.data 9⟩]⟩ : Queue Nat).Put (.data 5) = .ret (q1, true, none) ∧
      q1.Get = .ret (q2, .data 5, none) ∧
      q2.size = 0 ∧ q2.caches[0]? = some ⟨Value.nil⟩ ∧ q2.getPos = q2.putPos :=
  ⟨by decide,
   Put_Get_round_trip ⟨1, 0, 0, 0, [⟨.data 9⟩]⟩ (.data 5) (by decide) (by decide) rfl⟩

/-- C3 (full rejection): for every capacity c (a uint32), the c calls of Put
made on CreateQueue(c) with no Get in between all return (true, nil), and the
Put that follows returns false with the error "queue is full"; and on every
queue state with size >= capacity, Put returns false with that error and
leaves the whole state (getPos, putPos, size, every slot) unchanged. -/
theorem Put_full_rejected {α : Type} (c : Nat) (hc : c < u32) (vs : List (Value α))
    (hvs : vs.length = c) (v : Value α) :
    (∃ q1 : Queue α,
      (CreateQueue c).PutAll vs = .ret (q1, List.replicate c (true, none)) ∧
      q1.Put v = .ret (q1, false, some "queue is full")) ∧
    (∀ q : Queue α, q.size ≥ q.capacity →
      q.Put v = .ret (q, false, some "queue is full")) := by
  have hfull : ∀ q : Queue α, q.size ≥ q.capacity →
      q.Put v = .ret (q, false, some "queue is full") := by
    intro q hq
    simp [Queue.Put, Queue.PutLoaded, hq, errFull]
  refine ⟨?_, hfull⟩
  obtain ⟨q1, h1, _, hcap, _, hs1, _⟩ :=
    PutAll_ret vs (CreateQueue c) (CreateQueue_consistent c hc)
      (by simp [CreateQueue, hvs])
  refine ⟨q1, ?_, hfull q1 ?_⟩
  · rw [h1, hvs]
  · rw [hs1, hcap]
    simp [CreateQueue, hvs]

theorem Put_full_rejected_witness :
    (2 < u32 ∧ [Value.data 1, Value.data 2].length = 2 ∧
      (⟨1, 0, 0, 1, [⟨.data 8⟩]⟩ : Queue Nat).size
        ≥ (⟨1, 0, 0, 1, [⟨.data 8⟩]⟩ : Queue Nat).capacity) ∧
    (∃ q1 : Queue Nat,
      (CreateQueue 2).PutAll [.data 1, .data 2] = .ret (q1, List.replicate 2 (true, none)) ∧
      q1.Put (.data 3) = .ret (q1, false, some "queue is full")) ∧
    (⟨1, 0, 0, 1, [⟨.data 8⟩]⟩ : Queue Nat).Put (.data 3)
      = .ret (⟨1, 0, 0, 1, [⟨.data 8⟩]⟩, false, some "queue is full") :=
  ⟨⟨by decide, rfl, by decide⟩,
   (Put_full_rejected 2 (by decide) [.data 1, .data 2] rfl (.data 3)).1,
   (Put_full_rejected 2 (by decide) [.data 1, .data 2] rfl (.data 3)).2
     ⟨1, 0, 0, 1, [⟨.data 8⟩]⟩ (by decide)⟩

/-- C4 (empty rejection): for every capacity c, 0 included, Get on
CreateQueue(c) returns the nil value with the error "queue is empty"; and on
every queue state with size = 0, Get returns nil with that error and leaves
the whole state (getPos, putPos, size, every slot) unchanged. -/
theorem Get_empty_rejected {α : Type} (c : Nat) :
    (CreateQueue c : Queue α).Get
        = .ret (CreateQueue c, Value.nil, some "queue is empty") ∧
    (∀ q : Queue α, q.size = 0 →
      q.Get = .ret (q, Value.nil, some "queue is empty")) := by
  have hempty : ∀ q : Queue α, q.size = 0 →
      q.Get = .ret (q, Value.nil, some "queue is empty") := by
    intro q hq
    simp [Queue.Get, Queue.GetLoaded, hq, errEmpty]
  exact ⟨hempty _ rfl, hempty⟩

theorem Get_empty_rejected_witness :
    (⟨2, 1, 1, 0, [⟨.data 4⟩, ⟨.nil⟩]⟩ : Queue Nat).size = 0 ∧
    (⟨2, 1, 1, 0, [⟨.data 4⟩, ⟨.nil⟩]⟩ : Queue Nat).Get
      = .ret (⟨2, 1, 1, 0, [⟨.data 4⟩, ⟨.nil⟩]⟩, Value.nil, some "queue is empty") :=
  ⟨rfl, (Get_empty_rejected (α := Nat) 0).2 ⟨2, 1, 1, 0, [⟨.data 4⟩, ⟨.nil⟩]⟩ rfl⟩

/-- C5 (concrete scenario): on CreateQueue(3), Put(1), Put(2), Put(3) each
return (true, nil); Put(4) returns false with "queue is full"; Get returns 1;
Put(4) then returns (true, nil); the next three Get calls return 2, 3, 4 in
that order; one more Get returns the error "queue is empty". -/
theorem scenario_capacity_three :
    ∃ q1 q2 q3 q4 q5 q6 q7 q8 q9 q10 : Queue Nat,
      (CreateQueue 3).Put (.data 1) = .ret (q1, true, none) ∧
      q1.Put (.data 2) = .ret (q2, true, none) ∧
      q2.Put (.data 3) = .ret (q3, true, none) ∧
      q3.Put (.data 4) = .ret (q4, false, some "queue is full") ∧
      q4.Get = .ret (q5, .data 1, none) ∧
      q5.Put (.data 4) = .ret (q6, true, none) ∧
      q6.Get = .ret (q7, .data 2, none) ∧
      q7.Get = .ret (q8, .data 3, none) ∧
      q8.Get = .ret (q9, .data 4, none) ∧
      q9.Get = .ret (q10, .nil, some "queue is empty") :=
  ⟨⟨3, 0, 1, 1, [⟨.data 1⟩, ⟨.nil⟩, ⟨.nil⟩]⟩,
   ⟨3, 0, 2, 2, [⟨.data 1⟩, ⟨.data 2⟩, ⟨.nil⟩]⟩,
   ⟨3, 0, 0, 3, [⟨.data 1⟩, ⟨.data 2⟩, ⟨.data 3⟩]⟩,
   ⟨3, 0, 0, 3, [⟨.data 1⟩, ⟨.data 2⟩, ⟨.data 3⟩]⟩,
   ⟨3, 1, 0, 2, [⟨.nil⟩, ⟨.data 2⟩, ⟨.data 3⟩]⟩,
   ⟨3, 1, 1, 3, [⟨.data 4⟩, ⟨.data 2⟩, ⟨.data 3⟩]⟩,
   ⟨3, 2, 1, 2, [⟨.data 4⟩, ⟨.nil⟩, ⟨.data 3⟩]⟩,
   ⟨3, 0, 1, 1, [⟨.data 4⟩, ⟨.nil⟩, ⟨.nil⟩]⟩,
   ⟨3, 1, 1, 0, [⟨.nil⟩, ⟨.nil⟩, ⟨.nil⟩]⟩,
   ⟨3, 1, 1, 0, [⟨.nil⟩, ⟨.nil⟩, ⟨.nil⟩]⟩,
   by decide, by decide, by decide, by decide, by decide,
   by decide, by decide, by decide, by decide, by decide⟩

/-- C6 (capacity bound): for every capacity c (a uint32), every state that a
single thread reaches from CreateQueue(c) by a sequence of calls of Put, Get,
PutWithBlock and GetWithBlock that all return (Put and Get may succeed or
fail; PutWithBlock returns only when the queue is not full and GetWithBlock
only when it is not empty, otherwise they park) has 0 <= size <= capacity,
and its capacity is still c. -/
theorem size_le_capacity_of_calls {α : Type} (c : Nat) (hc : c < u32)
    (cs : List (Call α)) (q : Queue α) (hr : (CreateQueue c).calls cs = .ret q) :
    0 ≤ q.size ∧ q.size ≤ q.capacity ∧ q.capacity = c := by
  obtain ⟨⟨_, _, hle, _, _⟩, hcap⟩ :=
    calls_consistent cs (CreateQueue c) q (CreateQueue_consistent c hc) hr
  exact ⟨Nat.zero_le _, hle, hcap⟩

theorem size_le_capacity_of_calls_witness :
    (2 < u32 ∧
      (CreateQueue 2 : Queue Nat).calls
          [.Get, .PutWithBlock (.data 1), .Put (.data 2), .Put (.data 3), .GetWithBlock,
           .Get, .Get]
        = .ret ⟨2, 0, 0, 0, [⟨.nil⟩, ⟨.nil⟩]⟩) ∧
    (0 ≤ (⟨2, 0, 0, 0, [⟨.nil⟩, ⟨.nil⟩]⟩ : Queue Nat).size ∧
      (⟨2, 0, 0, 0, [⟨.nil⟩, ⟨.nil⟩]⟩ : Queue Nat).size
        ≤ (⟨2, 0, 0, 0, [⟨.nil⟩, ⟨.nil⟩]⟩ : Queue Nat).capacity ∧
      (⟨2, 0, 0, 0, [⟨.nil⟩, ⟨.nil⟩]⟩ : Queue Nat).capacity = 2) :=
  ⟨⟨by decide, by decide⟩,
   size_le_capacity_of_calls 2 (by decide)
     [.Get, .PutWithBlock (.data 1), .Put (.data 2), .Put (.data 3), .GetWithBlock,
      .Get, .Get]
     ⟨2, 0, 0, 0, [⟨.nil⟩, ⟨.nil⟩]⟩ (by decide)⟩

/-- C7 (a losing attempt does mutate the queue): with capacity 3, a Put that
loaded size = 1 and putPos = 1 and whose compare-and-swaps run after another
thread completed a Get (size is 0 by then, putPos still 1) returns the error
"the queue has been changed, sync failed" and has moved putPos from 1 to 2;
and a Get that loaded size = 1 and getPos = 0 and whose compare-and-swaps run
after another thread completed a Put (size is 2 by then, getPos still 0)
returns that error and has moved getPos from 0 to 1.  In both cases the
state after the failed call differs from the state before it. -/
theorem lost_race_moves_position :
    (⟨3, 0, 1, 1, [⟨.data 5⟩, ⟨.nil⟩, ⟨.nil⟩]⟩ : Queue Nat).Get
      = .ret (⟨3, 1, 1, 0, [⟨.nil⟩, ⟨.nil⟩, ⟨.nil⟩]⟩, .data 5, none) ∧
    (⟨3, 1, 1, 0, [⟨.nil⟩, ⟨.nil⟩, ⟨.nil⟩]⟩ : Queue Nat).PutLoaded 1 1 (.data 7)
      = .ret (⟨3, 1, 2, 0, [⟨.nil⟩, ⟨.nil⟩, ⟨.nil⟩]⟩, false,
          some "the queue has been changed, sync failed") ∧
    (⟨3, 0, 1, 1, [⟨.data 5⟩, ⟨.nil⟩, ⟨.nil⟩]⟩ : Queue Nat).Put (.data 6)
      = .ret (⟨3, 0, 2, 2, [⟨.data 5⟩, ⟨.data 6⟩, ⟨.nil⟩]⟩, true, none) ∧
    (⟨3, 0, 2, 2, [⟨.data 5⟩, ⟨.data 6⟩, ⟨.nil⟩]⟩ : Queue Nat).GetLoaded 1 0
      = .ret (⟨3, 1, 2, 2, [⟨.data 5⟩, ⟨.data 6⟩, ⟨.nil⟩]⟩, .bool false,
          some "the queue has been changed, sync failed") ∧
    (⟨3, 1, 2, 0, [⟨.nil⟩, ⟨.nil⟩, ⟨.nil⟩]⟩ : Queue Nat)
      ≠ ⟨3, 1, 1, 0, [⟨.nil⟩, ⟨.nil⟩, ⟨.nil⟩]⟩ ∧
    (⟨3, 1, 2, 2, [⟨.data 5⟩, ⟨.data 6⟩, ⟨.nil⟩]⟩ : Queue Nat)
      ≠ ⟨3, 0, 2, 2, [⟨.data 5⟩, ⟨.data 6⟩, ⟨.nil⟩]⟩ := by
  refine ⟨?_, ?_, ?_, ?_, ?_, ?_⟩ <;> decide

/-- C8 (effect of a successful Put): on every consistent queue with
size < capacity, Put(v) returns (true, nil); the slot at the previous putPos
holds v, putPos is (previous putPos + 1) mod capacity, size is the previous
size + 1; capacity and getPos are unchanged, the slot array keeps its length
and every slot other than the one at the previous putPos is unchanged. -/
theorem Put_effect {α : Type} (q : Queue α) (v : Value α) (hq : Consistent q)
    (hs : q.size < q.capacity) :
    ∃ q1 : Queue α,
      q.Put v = .ret (q1, true, none) ∧
      q1.caches[q.putPos]? = some ⟨v⟩ ∧
      q1.putPos = (q.putPos + 1) % q.capacity ∧
      q1.size = q.size + 1 ∧
      q1.capacity = q.capacity ∧
      q1.getPos = q.getPos ∧
      q1.caches.length = q.caches.length ∧
      ∀ i : Nat, i ≠ q.putPos → q1.caches[i]? = q.caches[i]? := by
  have hlt := hq.putPos_lt (by omega)
  have hl : q.caches.length = q.capacity := hq.2.1
  refine ⟨_, Put_ret q v hq hs, ?_, rfl, rfl, rfl, rfl, ?_, ?_⟩
  · exact List.getElem?_set_self (by omega)
  · simp
  · intro i hi
    exact List.getElem?_set_ne (Ne.symm hi)

theorem Put_effect_witness :
    (Consistent (⟨3, 2, 0, 1, [⟨.nil⟩, ⟨.nil⟩, ⟨.data 1⟩]⟩ : Queue Nat) ∧
      (⟨3, 2, 0, 1, [⟨.nil⟩, ⟨.nil⟩, ⟨.data 1⟩]⟩ : Queue Nat).size
        < (⟨3, 2, 0, 1, [⟨.nil⟩, ⟨.nil⟩, ⟨.data 1⟩]⟩ : Queue Nat).capacity) ∧
    ∃ q1 : Queue Nat,
      (⟨3, 2, 0, 1, [⟨.nil⟩, ⟨.nil⟩, ⟨.data 1⟩]⟩ : Queue Nat).Put (.data 2)
        = .ret (q1, true, none) ∧
      q1.caches[0]? = some ⟨.data 2⟩ ∧
      q1.putPos = (0 + 1) % 3 ∧
      q1.size = 1 + 1 ∧
      q1.capacity = 3 ∧
      q1.getPos = 2 ∧
      q1.caches.length = 3 ∧
      ∀ i : Nat, i ≠ 0 →
        q1.caches[i]? = ([⟨.nil⟩, ⟨.nil⟩, ⟨.data 1⟩] : List (cache Nat))[i]? :=
  ⟨⟨by decide, by decide⟩,
   Put_effect ⟨3, 2, 0, 1, [⟨.nil⟩, ⟨.nil⟩, ⟨.data 1⟩]⟩ (.data 2) (by decide) (by decide)⟩

/-- C9 (effect of a successful Get): on every consistent queue with size > 0,
Get returns (v, nil) where v is the value held by the slot at the previous
getPos; that slot is set to nil, getPos is (previous getPos + 1) mod
capacity, size is the previous size - 1; capacity and putPos are unchanged,
the slot array keeps its length and every other slot is unchanged. -/
theorem Get_effect {α : Type} (q : Queue α) (hq : Consistent q) (hs : 0 < q.size) :
    ∃ (c : cache α) (q1 : Queue α),
      q.caches[q.getPos]? = some c ∧
      q.Get = .ret (q1, c.value, none) ∧
      q1.caches[q.getPos]? = some ⟨Value.nil⟩ ∧
      q1.getPos = (q.getPos + 1) % q.capacity ∧
      q1.size + 1 = q.size ∧
      q1.capacity = q.capacity ∧
      q1.putPos = q.putPos ∧
      q1.caches.length = q.caches.length ∧
      ∀ i : Nat, i ≠ q.getPos → q1.caches[i]? = q.caches[i]? := by
  have hget := Get_ret q hq hs
  obtain ⟨_, hl, hle, hg, _⟩ := hq
  have hlt : q.getPos < q.caches.length := by
    have := hg (by omega)
    omega
  refine ⟨q.caches[q.getPos],
    { q with
        getPos := (q.getPos + 1) % q.capacity
        size := q.size - 1
        caches := q.caches.set q.getPos ⟨Value.nil⟩ },
    List.getElem?_eq_getElem hlt, ?_, ?_, rfl, ?_, rfl, rfl, ?_, ?_⟩
  · rw [hget]
    simp [Queue.slot, List.getElem?_eq_getElem hlt]
  · exact List.getElem?_set_self hlt
  · show q.size - 1 + 1 = q.size
    omega
  · simp
  · intro i hi
    exact List.getElem?_set_ne (Ne.symm hi)

theorem Get_effect_witness :
    (Consistent (⟨3, 2, 1, 2, [⟨.data 2⟩, ⟨.nil⟩, ⟨.data 1⟩]⟩ : Queue Nat) ∧
      0 < (⟨3, 2, 1, 2, [⟨.data 2⟩, ⟨.nil⟩, ⟨.data 1⟩]⟩ : Queue Nat).size) ∧
    ∃ (c : cache Nat) (q1 : Queue Nat),
      ([⟨.data 2⟩, ⟨.nil⟩, ⟨.data 1⟩] : List (cache Nat))[2]? = some c ∧
      (⟨3, 2, 1, 2, [⟨.data 2⟩, ⟨.nil⟩, ⟨.data 1⟩]⟩ : Queue Nat).Get
        = .ret (q1, c.value, none) ∧
      q1.caches[2]? = some ⟨Value.nil⟩ ∧
      q1.getPos = (2 + 1) % 3 ∧
      q1.size + 1 = 2 ∧
      q1.capacity = 3 ∧
      q1.putPos = 1 ∧
      q1.caches.length = 3 ∧
      ∀ i : Nat, i ≠ 2 →
        q1.caches[i]? = ([⟨.data 2⟩, ⟨.nil⟩, ⟨.data 1⟩] : List (cache Nat))[i]? :=
  ⟨⟨by decide, by decide⟩,
   Get_effect ⟨3, 2, 1, 2, [⟨.data 2⟩, ⟨.nil⟩, ⟨.data 1⟩]⟩ (by decide) (by decide)⟩

/-- C10 (construction): for every capacity c, CreateQueue(c) has getPos = 0,
putPos = 0, size = 0, Capacity() = c, Size() = 0 and a slot array of length
exactly c in which every slot holds nil. -/
theorem CreateQueue_fields {α : Type} (c : Nat) :
    (CreateQueue c : Queue α).getPos = 0 ∧
    (CreateQueue c : Queue α).putPos = 0 ∧
    (CreateQueue c : Queue α).size = 0 ∧
    (CreateQueue c : Queue α).Capacity = c ∧
    (CreateQueue c : Queue α).Size = 0 ∧
    (CreateQueue c : Queue α).caches.length = c ∧
    ∀ s ∈ (CreateQueue c : Queue α).caches, s.value = Value.nil := by
  refine ⟨rfl, rfl, rfl, rfl, rfl, ?_, ?_⟩
  · simp [CreateQueue]
  · intro s hs
    simp only [CreateQueue] at hs
    rw [List.eq_of_mem_replicate hs]

/-! ## Zero capacity, reachable states, the blocking discipline -/

theorem calls_zero_capacity {α : Type} (cs : List (Call α))
    (hcs : ∀ x ∈ cs, x.nonBlocking = true) :
    (CreateQueue 0 : Queue α).calls cs = .ret (CreateQueue 0) := by
  induction cs with
  | nil => rfl
  | cons x cs ih =>
    have hx := hcs x (List.mem_cons_self x cs)
    have ih := ih (fun y hy => hcs y (List.mem_cons_of_mem x hy))
    cases x with
    | Put v =>
      simp only [Queue.calls, Queue.call, Put_of_full (CreateQueue 0) v (Nat.zero_le _),
        Outcome.state, ih]
    | Get =>
      simp only [Queue.calls, Queue.call, Get_of_empty (CreateQueue 0) rfl, Outcome.state, ih]
    | PutWithBlock v => simp [Call.nonBlocking] at hx
    | GetWithBlock => simp [Call.nonBlocking] at hx

/-- C11 (zero capacity): on CreateQueue(0), every sequence of Put and Get calls
returns and leaves the state exactly CreateQueue(0); on that state every Put(v)
returns false with the error "queue is full" and every Get returns nil with the
error "queue is empty", both with the state unchanged.  The calls return, they
do not panic: the computation modulo the capacity is never reached, so there
is no division by zero. -/
theorem zero_capacity_rejects_all {α : Type} (cs : List (Call α))
    (hcs : ∀ x ∈ cs, x.nonBlocking = true) :
    (CreateQueue 0 : Queue α).calls cs = .ret (CreateQueue 0) ∧
    (∀ v : Value α,
      (CreateQueue 0 : Queue α).Put v = .ret (CreateQueue 0, false, some "queue is full")) ∧
    (CreateQueue 0 : Queue α).Get
      = .ret (CreateQueue 0, Value.nil, some "queue is empty") :=
  ⟨calls_zero_capacity cs hcs,
   fun v => Put_of_full (CreateQueue 0) v (Nat.zero_le _),
   Get_of_empty (CreateQueue 0) rfl⟩

theorem zero_capacity_rejects_all_witness :
    (∀ x ∈ ([.Put (.data 1), .Get, .Put .nil, .Get] : List (Call Nat)),
      x.nonBlocking = true) ∧
    (CreateQueue 0 : Queue Nat).calls [.Put (.data 1), .Get, .Put .nil, .Get]
      = .ret (CreateQueue 0) ∧
    (∀ v : Value Nat,
      (CreateQueue 0 : Queue Nat).Put v = .ret (CreateQueue 0, false, some "queue is full")) ∧
    (CreateQueue 0 : Queue Nat).Get
      = .ret (CreateQueue 0, Value.nil, some "queue is empty") :=
  ⟨by decide,
   zero_capacity_rejects_all [.Put (.data 1), .Get, .Put .nil, .Get] (by decide)⟩

/-- C13 (position invariant): for every capacity c >= 1 (a uint32), every
state that a single thread reaches from CreateQueue(c) by a sequence of calls
that return (in particular by any sequence of Put and Get calls, successful or
failed) has putPos = (getPos + size) mod capacity, computed over the natural
numbers, with a positive capacity. -/
theorem putPos_eq_of_calls {α : Type} (c : Nat) (hc1 : 1 ≤ c) (hc : c < u32)
    (cs : List (Call α)) (q : Queue α) (hr : (CreateQueue c).calls cs = .ret q) :
    0 < q.capacity ∧ q.putPos = (q.getPos + q.size) % q.capacity := by
  obtain ⟨⟨_, _, _, _, hp⟩, hcap⟩ :=
    calls_consistent cs (CreateQueue c) q (CreateQueue_consistent c hc) hr
  have hcap : q.capacity = c := hcap
  exact ⟨by omega, hp⟩

theorem putPos_eq_of_calls_witness :
    (1 ≤ 2 ∧ 2 < u32 ∧
      (CreateQueue 2 : Queue Nat).calls
          [.Put (.data 1), .Put (.data 2), .Put (.data 3), .Get, .Get, .Put (.data 4)]
        = .ret ⟨2, 0, 1, 1, [⟨.data 4⟩, ⟨.nil⟩]⟩) ∧
    0 < (⟨2, 0, 1, 1, [⟨.data 4⟩, ⟨.nil⟩]⟩ : Queue Nat).capacity ∧
    (⟨2, 0, 1, 1, [⟨.data 4⟩, ⟨.nil⟩]⟩ : Queue Nat).putPos
      = ((⟨2, 0, 1, 1, [⟨.data 4⟩, ⟨.nil⟩]⟩ : Queue Nat).getPos
          + (⟨2, 0, 1, 1, [⟨.data 4⟩, ⟨.nil⟩]⟩ : Queue Nat).size)
        % (⟨2, 0, 1, 1, [⟨.data 4⟩, ⟨.nil⟩]⟩ : Queue Nat).capacity :=
  ⟨⟨by decide, by decide, by decide⟩,
   putPos_eq_of_calls 2 (by decide) (by decide)
     [.Put (.data 1), .Put (.data 2), .Put (.data 3), .Get, .Get, .Put (.data 4)]
     ⟨2, 0, 1, 1, [⟨.data 4⟩, ⟨.nil⟩]⟩ (by decide)⟩

/-- C15 (producer wake-up on the full-to-not-full edge only): on every
consistent queue that is not empty, GetWithBlock returns, and it calls
Broadcast if and only if size >= capacity held just before the decrement;
when size < capacity before the call it emits no signal. -/
theorem GetWithBlock_broadcast_iff {α : Type} (q : Queue α) (hq : Consistent q)
    (hs : 0 < q.size) :
    ∃ (q1 : Queue α) (v : Value α) (b : Bool),
      q.GetWithBlock = .ret (q1, v, b) ∧
      (b = true ↔ q.size ≥ q.capacity) ∧
      (q.size < q.capacity → b = false) := by
  refine ⟨_, _, _, GetWithBlock_ret q hq hs, ?_, ?_⟩
  · simp
  · intro h
    simp [h]

theorem GetWithBlock_broadcast_iff_witness :
    (Consistent (⟨2, 1, 1, 2, [⟨.data 2⟩, ⟨.data 1⟩]⟩ : Queue Nat) ∧
      0 < (⟨2, 1, 1, 2, [⟨.data 2⟩, ⟨.data 1⟩]⟩ : Queue Nat).size) ∧
    ∃ (q1 : Queue Nat) (v : Value Nat) (b : Bool),
      (⟨2, 1, 1, 2, [⟨.data 2⟩, ⟨.data 1⟩]⟩ : Queue Nat).GetWithBlock = .ret (q1, v, b) ∧
      (b = true ↔ 2 ≥ 2) ∧ (2 < 2 → b = false) :=
  ⟨⟨by decide, by decide⟩,
   GetWithBlock_broadcast_iff ⟨2, 1, 1, 2, [⟨.data 2⟩, ⟨.data 1⟩]⟩ (by decide) (by decide)⟩

/-- C17 (the two disciplines agree without contention): on every consistent
queue, if size < capacity then PutWithBlock(v) returns with exactly the state
(getPos, putPos, size, slots, capacity) that the successful Put(v) yields; and
if size > 0 then GetWithBlock returns the same value and the same state as the
successful Get. -/
theorem blocking_agrees_with_nonblocking {α : Type} (q : Queue α) (v : Value α)
    (hq : Consistent q) :
    (q.size < q.capacity →
      ∃ q1 : Queue α,
        q.Put v = .ret (q1, true, none) ∧ ∃ b : Bool, q.PutWithBlock v = .ret (q1, b)) ∧
    (0 < q.size →
      ∃ (q1 : Queue α) (x : Value α),
        q.Get = .ret (q1, x, none) ∧ ∃ b : Bool, q.GetWithBlock = .ret (q1, x, b)) :=
  ⟨fun hs => ⟨_, Put_ret q v hq hs, _, PutWithBlock_ret q v hq hs⟩,
   fun hs => ⟨_, _, Get_ret q hq hs, _, GetWithBlock_ret q hq hs⟩⟩

theorem blocking_agrees_with_nonblocking_witness :
    (Consistent (⟨3, 2, 0, 1, [⟨.nil⟩, ⟨.nil⟩, ⟨.data 1⟩]⟩ : Queue Nat) ∧
      (⟨3, 2, 0, 1, [⟨.nil⟩, ⟨.nil⟩, ⟨.data 1⟩]⟩ : Queue Nat).size
        < (⟨3, 2, 0, 1, [⟨.nil⟩, ⟨.nil⟩, ⟨.data 1⟩]⟩ : Queue Nat).capacity ∧
      0 < (⟨3, 2, 0, 1, [⟨.nil⟩, ⟨.nil⟩, ⟨.data 1⟩]⟩ : Queue Nat).size) ∧
    (∃ q1 : Queue Nat,
      (⟨3, 2, 0, 1, [⟨.nil⟩, ⟨.nil⟩, ⟨.data 1⟩]⟩ : Queue Nat).Put (.data 2)
        = .ret (q1, true, none) ∧
      ∃ b : Bool,
        (⟨3, 2, 0, 1, [⟨.nil⟩, ⟨.nil⟩, ⟨.data 1⟩]⟩ : Queue Nat).PutWithBlock (.data 2)
          = .ret (q1, b)) ∧
    (∃ (q1 : Queue Nat) (x : Value Nat),
      (⟨3, 2, 0, 1, [⟨.nil⟩, ⟨.nil⟩, ⟨.data 1⟩]⟩ : Queue Nat).Get = .ret (q1, x, none) ∧
      ∃ b : Bool,
        (⟨3, 2, 0, 1, [⟨.nil⟩, ⟨.nil⟩, ⟨.data 1⟩]⟩ : Queue Nat).GetWithBlock
          = .ret (q1, x, b)) :=
  ⟨⟨by decide, by decide, by decide⟩,
   (blocking_agrees_with_nonblocking ⟨3, 2, 0, 1, [⟨.nil⟩, ⟨.nil⟩, ⟨.data 1⟩]⟩ (.data 2)
      (by decide)).1 (by decide),
   (blocking_agrees_with_nonblocking ⟨3, 2, 0, 1, [⟨.nil⟩, ⟨.nil⟩, ⟨.data 1⟩]⟩ (.data 2)
      (by decide)).2 (by decide)⟩

/-- C18 (without interference the non-blocking calls fail exactly on full and
empty): on every consistent queue, of any capacity (capacity 1, where the new
position equals the old one, included), the single-threaded Put(v) returns,
with an error if and only if size >= capacity, and the single-threaded Get
returns, with an error if and only if size = 0; neither ever returns the error
"the queue has been changed, sync failed". -/
theorem nonblocking_error_iff {α : Type} (q : Queue α) (v : Value α) (hq : Consistent q) :
    (∃ (q1 : Queue α) (ok : Bool) (e : Option String),
      q.Put v = .ret (q1, ok, e) ∧ (e ≠ none ↔ q.size ≥ q.capacity) ∧
      e ≠ some "the queue has been changed, sync failed") ∧
    (∃ (q1 : Queue α) (x : Value α) (e : Option String),
      q.Get = .ret (q1, x, e) ∧ (e ≠ none ↔ q.size = 0) ∧
      e ≠ some "the queue has been changed, sync failed") := by
  constructor
  · by_cases hs : q.size < q.capacity
    · refine ⟨_, _, _, Put_ret q v hq hs, ?_, by simp⟩
      simp only [ne_eq, not_true_eq_false, false_iff]
      omega
    · refine ⟨_, _, _, Put_of_full q v (by omega), ?_, by decide⟩
      simp only [ne_eq, reduceCtorEq, not_false_eq_true, true_iff]
      omega
  · by_cases hs : 0 < q.size
    · refine ⟨_, _, _, Get_ret q hq hs, ?_, by simp⟩
      simp only [ne_eq, not_true_eq_false, false_iff]
      omega
    · refine ⟨_, _, _, Get_of_empty q (by omega), ?_, by decide⟩
      simp only [ne_eq, reduceCtorEq, not_false_eq_true, true_iff]
      omega

theorem nonblocking_error_iff_witness :
    Consistent (⟨1, 0, 0, 1, [⟨.data 1⟩]⟩ : Queue Nat) ∧
    (∃ (q1 : Queue Nat) (ok : Bool) (e : Option String),
      (⟨1, 0, 0, 1, [⟨.data 1⟩]⟩ : Queue Nat).Put (.data 2) = .ret (q1, ok, e) ∧
      (e ≠ none ↔ 1 ≥ 1) ∧
      e ≠ some "the queue has been changed, sync failed") ∧
    (∃ (q1 : Queue Nat) (x : Value Nat) (e : Option String),
      (⟨1, 0, 0, 1, [⟨.data 1⟩]⟩ : Queue Nat).Get = .ret (q1, x, e) ∧
      (e ≠ none ↔ 1 = 0) ∧
      e ≠ some "the queue has been changed, sync failed") :=
  ⟨by decide, nonblocking_error_iff ⟨1, 0, 0, 1, [⟨.data 1⟩]⟩ (.data 2) (by decide)⟩

/-- C19 (index safety): for every capacity c >= 1 (a uint32), every state that
a single thread reaches from CreateQueue(c) by a sequence of calls of Put, Get,
PutWithBlock and GetWithBlock that all return (the blocking calls return only
on a queue that is not full, resp. not empty) has capacity c, a slot array of
length capacity, getPos < capacity and putPos < capacity; hence putPos and
getPos are indices of the slot array, putPos + 1 and getPos + 1 do not
overflow uint32, and no call made in that state panics. -/
theorem index_safety_of_calls {α : Type} (c : Nat) (hc1 : 1 ≤ c) (hc : c < u32)
    (cs : List (Call α)) (q : Queue α) (hr : (CreateQueue c).calls cs = .ret q) :
    q.capacity = c ∧ q.caches.length = q.capacity ∧
    q.getPos < q.capacity ∧ q.putPos < q.capacity ∧
    q.getPos < q.caches.length ∧ q.putPos < q.caches.length ∧
    q.putPos + 1 < u32 ∧ q.getPos + 1 < u32 ∧
    ∀ x : Call α, q.call x ≠ .panic := by
  obtain ⟨hq, hcap⟩ :=
    calls_consistent cs (CreateQueue c) q (CreateQueue_consistent c hc) hr
  have hcap : q.capacity = c := hcap
  have hp := hq.putPos_lt (by omega)
  have hnp := fun x => call_ne_panic q x hq
  obtain ⟨hu, hl, _, hg, _⟩ := hq
  have hg := hg (by omega)
  exact ⟨hcap, hl, hg, hp, by omega, by omega, by omega, by omega, hnp⟩

theorem index_safety_of_calls_witness :
    (1 ≤ 2 ∧ 2 < u32 ∧
      (CreateQueue 2 : Queue Nat).calls
          [.PutWithBlock (.data 1), .Put (.data 2), .GetWithBlock, .Put (.data 3)]
        = .ret ⟨2, 1, 1, 2, [⟨.data 3⟩, ⟨.data 2⟩]⟩) ∧
    (⟨2, 1, 1, 2, [⟨.data 3⟩, ⟨.data 2⟩]⟩ : Queue Nat).capacity = 2 ∧
    (⟨2, 1, 1, 2, [⟨.data 3⟩, ⟨.data 2⟩]⟩ : Queue Nat).caches.length
      = (⟨2, 1, 1, 2, [⟨.data 3⟩, ⟨.data 2⟩]⟩ : Queue Nat).capacity ∧
    (⟨2, 1, 1, 2, [⟨.data 3⟩, ⟨.data 2⟩]⟩ : Queue Nat).getPos
      < (⟨2, 1, 1, 2, [⟨.data 3⟩, ⟨.data 2⟩]⟩ : Queue Nat).capacity ∧
    (⟨2, 1, 1, 2, [⟨.data 3⟩, ⟨.data 2⟩]⟩ : Queue Nat).putPos
      < (⟨2, 1, 1, 2, [⟨.data 3⟩, ⟨.data 2⟩]⟩ : Queue Nat).capacity ∧
    (⟨2, 1, 1, 2, [⟨.data 3⟩, ⟨.data 2⟩]⟩ : Queue Nat).getPos
      < (⟨2, 1, 1, 2, [⟨.data 3⟩, ⟨.data 2⟩]⟩ : Queue Nat).caches.length ∧
    (⟨2, 1, 1, 2, [⟨.data 3⟩, ⟨.data 2⟩]⟩ : Queue Nat).putPos
      < (⟨2, 1, 1, 2, [⟨.data 3⟩, ⟨.data 2⟩]⟩ : Queue Nat).caches.length ∧
    (⟨2, 1, 1, 2, [⟨.data 3⟩, ⟨.data 2⟩]⟩ : Queue Nat).putPos + 1 < u32 ∧
    (⟨2, 1, 1, 2, [⟨.data 3⟩, ⟨.data 2⟩]⟩ : Queue Nat).getPos + 1 < u32 ∧
    ∀ x : Call Nat, (⟨2, 1, 1, 2, [⟨.data 3⟩, ⟨.data 2⟩]⟩ : Queue Nat).call x ≠ .panic :=
  ⟨⟨by decide, by decide, by decide⟩,
   index_safety_of_calls 2 (by decide) (by decide)
     [.PutWithBlock (.data 1), .Put (.data 2), .GetWithBlock, .Put (.data 3)]
     ⟨2, 1, 1, 2, [⟨.data 3⟩, ⟨.data 2⟩]⟩ (by decide)⟩

/-- C20 (count underflow in a blocking get): on every consistent queue with
size = 0, capacity >= 1 and every slot empty (nil), GetWithBlock parks in Wait;
when the call is resumed with nothing to read, the part after the Wait runs
without testing size again: it returns the content of the slot at getPos,
which is nil, without a Broadcast, advances getPos to (getPos + 1) mod
capacity and sets size to 2^32 - 1 (0 - 1 in uint32); after that every Put
returns false with the error "queue is full" and changes nothing. -/
theorem GetWithBlockBody_on_empty {α : Type} (q : Queue α) (hq : Consistent q)
    (hc : 1 ≤ q.capacity) (he : q.size = 0)
    (hnil : ∀ s ∈ q.caches, s.value = Value.nil) :
    q.GetWithBlock = .wait ∧
    ∃ q1 : Queue α,
      q.GetWithBlockBody = .ret (q1, Value.nil, false) ∧
      q1.getPos = (q.getPos + 1) % q.capacity ∧
      q1.capacity = q.capacity ∧
      q1.size = 2 ^ 32 - 1 ∧
      ∀ v : Value α, q1.Put v = .ret (q1, false, some "queue is full") := by
  obtain ⟨hu, hl, _, hg, _⟩ := hq
  have hg := hg (by omega)
  have hlt : q.getPos < q.caches.length := by omega
  have hz : ¬ q.capacity = 0 := by omega
  have e1 : (q.getPos + 1) % u32 = q.getPos + 1 := Nat.mod_eq_of_lt (by omega)
  have e2 : (q.size + u32 - 1) % u32 = 2 ^ 32 - 1 := by
    rw [he]
    rfl
  have hv : (q.caches[q.getPos]).value = Value.nil :=
    hnil _ (List.getElem_mem hlt)
  have hu2 : q.capacity < 2 ^ 32 := hu
  refine ⟨by simp [Queue.GetWithBlock, he], ?_⟩
  refine ⟨{ q with
              caches := q.caches.set q.getPos ⟨Value.nil⟩
              getPos := (q.getPos + 1) % q.capacity
              size := 2 ^ 32 - 1 }, ?_, rfl, rfl, rfl, ?_⟩
  · simp [Queue.GetWithBlockBody, hz, e1, e2, List.getElem?_eq_getElem hlt, hv, he]
    rfl
  · intro v
    exact Put_of_full _ v (by
      show 2 ^ 32 - 1 ≥ q.capacity
      omega)

theorem GetWithBlockBody_on_empty_witness :
    (Consistent (⟨2, 1, 1, 0, [⟨.nil⟩, ⟨.nil⟩]⟩ : Queue Nat) ∧
      1 ≤ (⟨2, 1, 1, 0, [⟨.nil⟩, ⟨.nil⟩]⟩ : Queue Nat).capacity ∧
      (⟨2, 1, 1, 0, [⟨.nil⟩, ⟨.nil⟩]⟩ : Queue Nat).size = 0 ∧
      ∀ s ∈ (⟨2, 1, 1, 0, [⟨.nil⟩, ⟨.nil⟩]⟩ : Queue Nat).caches, s.value = Value.nil) ∧
    (⟨2, 1, 1, 0, [⟨.nil⟩, ⟨.nil⟩]⟩ : Queue Nat).GetWithBlock = .wait ∧
    ∃ q1 : Queue Nat,
      (⟨2, 1, 1, 0, [⟨.nil⟩, ⟨.nil⟩]⟩ : Queue Nat).GetWithBlockBody
        = .ret (q1, Value.nil, false) ∧
      q1.getPos = (1 + 1) % 2 ∧
      q1.capacity = 2 ∧
      q1.size = 2 ^ 32 - 1 ∧
      ∀ v : Value Nat, q1.Put v = .ret (q1, false, some "queue is full") :=
  ⟨⟨by decide, by decide, rfl, by decide⟩,
   GetWithBlockBody_on_empty ⟨2, 1, 1, 0, [⟨.nil⟩, ⟨.nil⟩]⟩
     (by decide) (by decide) rfl (by decide)⟩

/-- C12 (concurrency stress, one producer and one consumer with two
operations each, capacity 3): the producer puts 5; its second operation,
Put(7), loads size = 1 and putPos = 1; the consumer then completes a Get, which
returns 5; the compare-and-swaps of the pending Put(7) now run: the one on
putPos succeeds, the one on size fails, the call returns the error "the queue
has been changed, sync failed" with putPos moved to 2; the producer retries
and Put(7) returns (true, nil), storing 7 in slot 2 while getPos is 1; the
second Get of the consumer returns (nil, nil) from slot 1, and the queue is
then drained: size is 0 and a further Get returns "queue is empty".  Two Puts
and two Gets succeeded, but the value 7 was never delivered (it is still in
slot 2) and a nil that was never put was delivered in its place. -/
theorem interleaving_loses_value :
    ∃ s0 s1 s2 s3 s4 : Queue Nat,
      (CreateQueue 3).Put (.data 5) = .ret (s0, true, none) ∧
      s0.size = 1 ∧ s0.putPos = 1 ∧
      s0.Get = .ret (s1, .data 5, none) ∧
      s1.PutLoaded 1 1 (.data 7)
        = .ret (s2, false, some "the queue has been changed, sync failed") ∧
      s2.Put (.data 7) = .ret (s3, true, none) ∧
      s3.Get = .ret (s4, .nil, none) ∧
      s4.size = 0 ∧
      s4.Get = .ret (s4, .nil, some "queue is empty") ∧
      s4.caches = [⟨.nil⟩, ⟨.nil⟩, ⟨.data 7⟩] :=
  ⟨⟨3, 0, 1, 1, [⟨.data 5⟩, ⟨.nil⟩, ⟨.nil⟩]⟩,
   ⟨3, 1, 1, 0, [⟨.nil⟩, ⟨.nil⟩, ⟨.nil⟩]⟩,
   ⟨3, 1, 2, 0, [⟨.nil⟩, ⟨.nil⟩, ⟨.nil⟩]⟩,
   ⟨3, 1, 0, 1, [⟨.nil⟩, ⟨.nil⟩, ⟨.data 7⟩]⟩,
   ⟨3, 2, 0, 0, [⟨.nil⟩, ⟨.nil⟩, ⟨.data 7⟩]⟩,
   by decide, rfl, rfl, by decide, by decide, by decide, by decide, rfl, by decide, rfl⟩

/-! ## The live slots -/

theorem slot_set_self {α : Type} (q q1 : Queue α) (p : Nat) (x : Value α)
    (h : q1.caches = q.caches.set p ⟨x⟩) (hp : p < q.caches.length) : q1.slot p = x := by
  simp [Queue.slot, h, List.getElem?_set_self hp]

theorem slot_set_ne {α : Type} (q q1 : Queue α) (p j : Nat) (x : Value α)
    (h : q1.caches = q.caches.set p ⟨x⟩) (hj : j ≠ p) : q1.slot j = q.slot j := by
  simp [Queue.slot, h, List.getElem?_set_ne (Ne.symm hj)]

theorem CreateQueue_live {α : Type} (c : Nat) : LiveSlots (CreateQueue c : Queue α) := by
  intro j hj
  have hj : j < c := hj
  simp [Queue.slot, CreateQueue, List.getElem?_replicate, hj]

theorem Put_live {α : Type} (q : Queue α) (v : Value α) (h : Consistent q)
    (hlive : LiveSlots q) (hs : q.size < q.capacity) (hv : v ≠ Value.nil) :
    LiveSlots ({ q with
                   putPos := (q.putPos + 1) % q.capacity
                   size := q.size + 1
                   caches := q.caches.set q.putPos ⟨v⟩ } : Queue α) := by
  have hlt := h.putPos_lt (by omega)
  obtain ⟨_, hl, _, _, hp⟩ := h
  intro j hj
  have hj : j < q.capacity := hj
  show Queue.slot _ j ≠ Value.nil ↔ ∃ i : Nat, i < q.size + 1 ∧ j = (q.getPos + i) % q.capacity
  by_cases hjp : j = q.putPos
  · subst hjp
    rw [slot_set_self q _ q.putPos v rfl (by omega)]
    exact ⟨fun _ => ⟨q.size, by omega, hp⟩, fun _ => hv⟩
  · rw [slot_set_ne q _ q.putPos j v rfl hjp, hlive j hj]
    constructor
    · rintro ⟨i, hi, e⟩
      exact ⟨i, by omega, e⟩
    · rintro ⟨i, hi, e⟩
      by_cases his : i = q.size
      · subst his
        exact absurd (e.trans hp.symm) hjp
      · exact ⟨i, by omega, e⟩

theorem Get_live {α : Type} (q : Queue α) (h : Consistent q) (hlive : LiveSlots q)
    (hs : 0 < q.size) :
    LiveSlots ({ q with
                   getPos := (q.getPos + 1) % q.capacity
                   size := q.size - 1
                   caches := q.caches.set q.getPos ⟨Value.nil⟩ } : Queue α) := by
  obtain ⟨_, hl, hle, hg, _⟩ := h
  have hg := hg (by omega)
  have hshift : ∀ k : Nat, ((q.getPos + 1) % q.capacity + k) % q.capacity
      = (q.getPos + (k + 1)) % q.capacity := by
    intro k
    rw [Nat.mod_add_mod]
    congr 1
    omega
  intro j hj
  have hj : j < q.capacity := hj
  show Queue.slot _ j ≠ Value.nil ↔
    ∃ i : Nat, i < q.size - 1 ∧ j = ((q.getPos + 1) % q.capacity + i) % q.capacity
  by_cases hjg : j = q.getPos
  · subst hjg
    rw [slot_set_self q _ q.getPos Value.nil rfl (by omega)]
    constructor
    · intro hne
      exact absurd rfl hne
    · rintro ⟨i, hi, e⟩
      rw [hshift i] at e
      have hne := add_mod_ne (c := q.capacity) (g := q.getPos) (i := 0) (j := i + 1)
        (by omega) (by omega)
      rw [Nat.add_zero, Nat.mod_eq_of_lt hg] at hne
      exact absurd e hne
  · rw [slot_set_ne q _ q.getPos j Value.nil rfl hjg, hlive j hj]
    constructor
    · rintro ⟨i, hi, e⟩
      cases i with
      | zero =>
        rw [Nat.add_zero, Nat.mod_eq_of_lt hg] at e
        exact absurd e hjg
      | succ k => exact ⟨k, by omega, by rw [hshift k]; exact e⟩
    · rintro ⟨k, hk, e⟩
      exact ⟨k + 1, by omega, by rw [← hshift k]; exact e⟩

/-- One call that returns and does not store nil keeps the live-slot property. -/
theorem call_live {α : Type} (q q1 : Queue α) (c : Call α) (h : Consistent q)
    (hlive : LiveSlots q) (hc : c.putsNil = false) (hr : q.call c = .ret q1) :
    LiveSlots q1 := by
  cases c with
  | Put v =>
    have hv : v ≠ Value.nil := by
      rintro rfl
      simp [Call.putsNil] at hc
    by_cases hs : q.size < q.capacity
    · simp only [Queue.call, Put_ret q v h hs, Outcome.state, Outcome.ret.injEq] at hr
      subst hr
      exact Put_live q v h hlive hs hv
    · simp only [Queue.call, Put_of_full q v (by omega), Outcome.state,
        Outcome.ret.injEq] at hr
      subst hr
      exact hlive
  | Get =>
    by_cases hs : 0 < q.size
    · simp only [Queue.call, Get_ret q h hs, Outcome.state, Outcome.ret.injEq] at hr
      subst hr
      exact Get_live q h hlive hs
    · simp only [Queue.call, Get_of_empty q (by omega), Outcome.state,
        Outcome.ret.injEq] at hr
      subst hr
      exact hlive
  | PutWithBlock v =>
    have hv : v ≠ Value.nil := by
      rintro rfl
      simp [Call.putsNil] at hc
    by_cases hs : q.size < q.capacity
    · simp only [Queue.call, PutWithBlock_ret q v h hs, Outcome.state,
        Outcome.ret.injEq] at hr
      subst hr
      exact Put_live q v h hlive hs hv
    · have hw : q.PutWithBlock v = .wait := by
        simp [Queue.PutWithBlock, Nat.le_of_not_lt hs]
      simp [Queue.call, hw, Outcome.state] at hr
  | GetWithBlock =>
    by_cases hs : 0 < q.size
    · simp only [Queue.call, GetWithBlock_ret q h hs, Outcome.state,
        Outcome.ret.injEq] at hr
      subst hr
      exact Get_live q h hlive hs
    · have hw : q.GetWithBlock = .wait := by
        simp [Queue.GetWithBlock, Nat.le_of_not_lt hs]
      simp [Queue.call, hw, Outcome.state] at hr

/-- A run of calls that returns and never stores nil keeps the live-slot
property. -/
theorem calls_live {α : Type} (cs : List (Call α)) :
    ∀ q q1 : Queue α, Consistent q → LiveSlots q → (∀ x ∈ cs, x.putsNil = false) →
      q.calls cs = .ret q1 → LiveSlots q1 := by
  induction cs with
  | nil =>
    intro q q1 _ hlive _ hr
    simp only [Queue.calls, Outcome.ret.injEq] at hr
    subst hr
    exact hlive
  | cons c cs ih =>
    intro q q1 h hlive hcs hr
    simp only [Queue.calls] at hr
    cases hc : q.call c with
    | ret q2 =>
      rw [hc] at hr
      exact ih q2 q1 (call_consistent q q2 c h hc).1
        (call_live q q2 c h hlive (hcs c (List.mem_cons_self c cs)) hc)
        (fun y hy => hcs y (List.mem_cons_of_mem c hy)) hr
    | panic => rw [hc] at hr; cases hr
    | wait => rw [hc] at hr; cases hr

/-- C14 (live-slot invariant): for every capacity c (a uint32), in every state
that a single thread reaches from CreateQueue(c) by a sequence of returning
calls that store no nil value (in particular by any sequence of Put and Get
calls of non-nil values), a slot of the ring holds a value (is not nil) if and
only if its index is (getPos + i) mod capacity for some 0 <= i < size; every
other slot is nil. -/
theorem live_slots_of_calls {α : Type} (c : Nat) (hc : c < u32) (cs : List (Call α))
    (hcs : ∀ x ∈ cs, x.putsNil = false) (q : Queue α)
    (hr : (CreateQueue c).calls cs = .ret q) :
    ∀ j : Nat, j < q.capacity →
      (q.slot j ≠ Value.nil ↔ ∃ i : Nat, i < q.size ∧ j = (q.getPos + i) % q.capacity) :=
  calls_live cs (CreateQueue c) q (CreateQueue_consistent c hc) (CreateQueue_live c) hcs hr

theorem live_slots_of_calls_witness :
    (3 < u32 ∧
      (∀ x ∈ ([.Put (.data 1), .Put (.data 2), .Put (.data 3), .Get, .Get, .Put (.data 4)]
          : List (Call Nat)), x.putsNil = false) ∧
      (CreateQueue 3 : Queue Nat).calls
          [.Put (.data 1), .Put (.data 2), .Put (.data 3), .Get, .Get, .Put (.data 4)]
        = .ret ⟨3, 2, 1, 2, [⟨.data 4⟩, ⟨.nil⟩, ⟨.data 3⟩]⟩) ∧
    ∀ j : Nat, j < 3 →
      ((⟨3, 2, 1, 2, [⟨.data 4⟩, ⟨.nil⟩, ⟨.data 3⟩]⟩ : Queue Nat).slot j ≠ Value.nil ↔
        ∃ i : Nat, i < 2 ∧ j = (2 + i) % 3) :=
  ⟨⟨by decide, by decide, by decide⟩,
   live_slots_of_calls 3 (by decide)
     [.Put (.data 1), .Put (.data 2), .Put (.data 3), .Get, .Get, .Put (.data 4)]
     (by decide) ⟨3, 2, 1, 2, [⟨.data 4⟩, ⟨.nil⟩, ⟨.data 3⟩]⟩ (by decide)⟩

/-- C16 (single check before a blocking put): on every consistent queue that
is full (size = capacity >= 1, with capacity + 1 still a uint32) PutWithBlock
parks in Wait, putPos = getPos, and the slot at getPos holds the oldest unread
value (the one a Get would return); when the call is resumed while the queue
is still full, the part after the Wait runs without testing size again: it
stores the new value in that slot and leaves size = capacity + 1, so
size <= capacity no longer holds. -/
theorem PutWithBlockBody_on_full {α : Type} (q : Queue α) (v : Value α)
    (hq : Consistent q) (hc : 1 ≤ q.capacity) (hfull : q.size = q.capacity)
    (hu : q.capacity + 1 < u32) :
    q.PutWithBlock v = .wait ∧ q.putPos = q.getPos ∧
    (∃ q2 : Queue α, q.Get = .ret (q2, q.slot q.getPos, none)) ∧
    ∃ q1 : Queue α,
      q.PutWithBlockBody v = .ret (q1, true) ∧
      q1.slot q.getPos = v ∧
      q1.getPos = q.getPos ∧
      q1.capacity = q.capacity ∧
      q1.size = q.capacity + 1 ∧
      ¬ q1.size ≤ q1.capacity := by
  have hlt := hq.putPos_lt (by omega)
  have hget := Get_ret q hq (by omega)
  obtain ⟨_, hl, _, hg, hp⟩ := hq
  have hg := hg (by omega)
  have hpg : q.putPos = q.getPos := by
    rw [hp, hfull, Nat.add_mod_right, Nat.mod_eq_of_lt hg]
  have hz : ¬ q.capacity = 0 := by omega
  have hlt2 : q.putPos < q.caches.length := by omega
  have e2 : (q.size + 1) % u32 = q.capacity + 1 := by
    rw [hfull]
    exact Nat.mod_eq_of_lt hu
  refine ⟨by simp [Queue.PutWithBlock, hfull], hpg, ⟨_, hget⟩, ?_⟩
  refine ⟨{ q with
              caches := q.caches.set q.putPos ⟨v⟩
              putPos := (q.putPos + 1) % u32 % q.capacity
              size := (q.size + 1) % u32 }, ?_, ?_, rfl, rfl, e2, ?_⟩
  · simp [Queue.PutWithBlockBody, hz, hlt2]
  · rw [← hpg]
    exact slot_set_self q _ q.putPos v rfl hlt2
  · show ¬ (q.size + 1) % u32 ≤ q.capacity
    rw [e2]
    omega

theorem PutWithBlockBody_on_full_witness :
    (Consistent (⟨2, 1, 1, 2, [⟨.data 2⟩, ⟨.data 1⟩]⟩ : Queue Nat) ∧
      1 ≤ (⟨2, 1, 1, 2, [⟨.data 2⟩, ⟨.data 1⟩]⟩ : Queue Nat).capacity ∧
      (⟨2, 1, 1, 2, [⟨.data 2⟩, ⟨.data 1⟩]⟩ : Queue Nat).size
        = (⟨2, 1, 1, 2, [⟨.data 2⟩, ⟨.data 1⟩]⟩ : Queue Nat).capacity ∧
      (⟨2, 1, 1, 2, [⟨.data 2⟩, ⟨.data 1⟩]⟩ : Queue Nat).capacity + 1 < u32) ∧
    (⟨2, 1, 1, 2, [⟨.data 2⟩, ⟨.data 1⟩]⟩ : Queue Nat).PutWithBlock (.data 3) = .wait ∧
    (⟨2, 1, 1, 2, [⟨.data 2⟩, ⟨.data 1⟩]⟩ : Queue Nat).putPos
      = (⟨2, 1, 1, 2, [⟨.data 2⟩, ⟨.data 1⟩]⟩ : Queue Nat).getPos ∧
    (∃ q2 : Queue Nat,
      (⟨2, 1, 1, 2, [⟨.data 2⟩, ⟨.data 1⟩]⟩ : Queue Nat).Get
        = .ret (q2, (⟨2, 1, 1, 2, [⟨.data 2⟩, ⟨.data 1⟩]⟩ : Queue Nat).slot 1, none)) ∧
    ∃ q1 : Queue Nat,
      (⟨2, 1, 1, 2, [⟨.data 2⟩, ⟨.data 1⟩]⟩ : Queue Nat).PutWithBlockBody (.data 3)
        = .ret (q1, true) ∧
      q1.slot 1 = .data 3 ∧
      q1.getPos = 1 ∧
      q1.capacity = 2 ∧
      q1.size = 2 + 1 ∧
      ¬ q1.size ≤ q1.capacity :=
  ⟨⟨by decide, by decide, by decide, by decide⟩,
   PutWithBlockBody_on_full ⟨2, 1, 1, 2, [⟨.data 2⟩, ⟨.data 1⟩]⟩ (.data 3)
     (by decide) (by decide) (by decide) (by decide)⟩

end GoQueue
